import Mathlib

/-!
AgroKongo offline cache worker (`static/js/sw.js`).

A shallow embedding of the service worker script and of the host capabilities it
consumes (`caches.open`, `cache.addAll`, `caches.match`, `fetch`, `console.warn`,
`event.waitUntil`, `event.respondWith`).

* A promise is a state-passing computation over the host `World` that settles as
  fulfilled or rejected; `thenP` and `catchP` are the promise combinators `.then`
  and `.catch` (both words are reserved in Lean).
* The host cache storage is a list of named buckets in creation order; a bucket is
  a list of entries (request URL, stored response) in insertion order.  Only GET
  requests can be keys, so a key is a URL.  `Vary` matching, URL fragments and the
  resolution of relative paths against the worker origin are not modelled.
* Every call the script makes on a host capability is appended to `World.calls`.
* One event is handled at a time; interleavings of concurrent events are not
  modelled.
-/

namespace AgroKongo

/-! Section: Data model -/

/-- Response snapshot: status code and body. -/
structure Response where
  status : Nat
  body : String
deriving DecidableEq, Repr

/-- Request as seen by the worker: method string and URL. -/
structure Request where
  method : String
  url : String
deriving DecidableEq, Repr

/-- Reasons a host promise may reject with. -/
inductive Failure where
  | network (detail : String)
  | badStatus (url : String) (status : Nat)
  | invalidState
  | quotaExceeded
  | storage (detail : String)
deriving DecidableEq, Repr

/-- Settled state of a promise. -/
inductive Settled (α : Type) where
  | fulfilled (value : α)
  | rejected (reason : Failure)
deriving DecidableEq, Repr

/-- Bucket contents: entries (URL of a GET request, stored response), oldest first. -/
abbrev Bucket := List (String × Response)

/-- Host cache storage: named buckets in creation order. -/
abbrev CacheStorage := List (String × Bucket)

/-- Handle on an opened bucket, as resolved by `caches.open`. -/
structure Cache where
  name : String
deriving DecidableEq, Repr

/-- Calls the script makes on host capabilities. -/
inductive HostCall where
  | cachesOpen (name : String)
  | cacheAddAll (name : String) (urls : List String)
  | cachesMatch (request : Request)
  | fetch (request : Request)
  | consoleWarn (reason : Failure)
deriving DecidableEq, Repr

/-- Behaviour of the host environment that the script cannot control: what the
network answers, whether opening a bucket fails, whether a cache write fails. -/
structure Host where
  network : Request → Settled Response
  openFailure : String → Option Failure
  writeFailure : Option Failure

/-- Observable host state: the cache storage and the log of host calls so far. -/
structure World where
  storage : CacheStorage
  calls : List HostCall
deriving DecidableEq, Repr

/-! Section: Promises -/

/-- Promise of a value of type `α`: run against the world, it settles. -/
def Promise (α : Type) : Type := World → Settled α × World

/-- The already fulfilled promise `Promise.resolve(v)`. -/
def Promise.resolve {α : Type} (v : α) : Promise α := fun w => (Settled.fulfilled v, w)

/-- The combinator `p.then(f)`: on fulfilment continue with `f`, on rejection the
rejection passes through. -/
def Promise.thenP {α β : Type} (p : Promise α) (f : α → Promise β) : Promise β := fun w =>
  match p w with
  | (Settled.fulfilled v, w1) => f v w1
  | (Settled.rejected e, w1) => (Settled.rejected e, w1)

/-- The combinator `p.catch(h)`: on rejection continue with `h`, a fulfilment passes
through. -/
def Promise.catchP {α : Type} (p : Promise α) (h : Failure → Promise α) : Promise α := fun w =>
  match p w with
  | (Settled.fulfilled v, w1) => (Settled.fulfilled v, w1)
  | (Settled.rejected e, w1) => h e w1

/-- Append a host call to the log. -/
def World.record (w : World) (c : HostCall) : World := { w with calls := w.calls ++ [c] }

/-! Section: Host cache storage -/

/-- Lookup of a request in one bucket (`cache.match`): only GET requests match, by
URL; the oldest matching entry is returned. -/
def Bucket.matchRequest : Bucket → Request → Option Response
  | [], _ => none
  | (u, r) :: rest, req =>
    if req.method = "GET" ∧ u = req.url then some r else Bucket.matchRequest rest req

/-- Keys (URLs) of a bucket. -/
def Bucket.keys (b : Bucket) : List String := b.map Prod.fst

/-- Cache write `put`: entries matching the request are removed, the new entry is
appended. -/
def Bucket.put (b : Bucket) (u : String) (r : Response) : Bucket :=
  b.filter (fun e => decide (e.1 ≠ u)) ++ [(u, r)]

/-- Bucket registered under a name, if any. -/
def CacheStorage.find : CacheStorage → String → Option Bucket
  | [], _ => none
  | (n, b) :: rest, name => if n = name then some b else CacheStorage.find rest name

/-- Storage after `caches.open(name)`: an existing bucket is reused, otherwise an
empty one is created after all existing buckets. -/
def CacheStorage.openBucket : CacheStorage → String → CacheStorage
  | [], name => [(name, [])]
  | (n, b) :: rest, name =>
    if n = name then (n, b) :: rest else (n, b) :: CacheStorage.openBucket rest name

/-- Storage with the contents of the bucket called `name` replaced. -/
def CacheStorage.replace : CacheStorage → String → Bucket → CacheStorage
  | [], _, _ => []
  | (n, b) :: rest, name, nb =>
    if n = name then (n, nb) :: rest else (n, b) :: CacheStorage.replace rest name nb

/-- Lookup of a request in the whole storage (`caches.match`): buckets are searched
in creation order and the first match wins. -/
def CacheStorage.matchRequest : CacheStorage → Request → Option Response
  | [], _ => none
  | (_, b) :: rest, req =>
    match b.matchRequest req with
    | some r => some r
    | none => CacheStorage.matchRequest rest req

/-- Buckets created before the bucket called `name`. -/
def CacheStorage.before (s : CacheStorage) (name : String) : CacheStorage :=
  s.takeWhile (fun p => decide (p.1 ≠ name))

/-- Status accepted by `addAll`: in the range 200 to 299 and not 206. -/
def Response.cacheable (r : Response) : Bool :=
  decide (200 ≤ r.status) && decide (r.status ≤ 299) && decide (r.status ≠ 206)

/-- Fetch phase of `addAll`: every URL is requested with GET; the first rejected
fetch or unacceptable status makes the whole operation fail. -/
def fetchAll (h : Host) : List String → Except Failure (List (String × Response))
  | [] => Except.ok []
  | u :: us =>
    match h.network { method := "GET", url := u } with
    | Settled.rejected e => Except.error e
    | Settled.fulfilled r =>
      if r.cacheable then
        match fetchAll h us with
        | Except.ok es => Except.ok ((u, r) :: es)
        | Except.error e => Except.error e
      else Except.error (Failure.badStatus u r.status)

/-- Store phase of `addAll` (batch cache operations): the entries are put in order;
a request already added by the same batch or a failed write aborts the batch. -/
def batchPut (h : Host) : List String → List (String × Response) → Bucket → Except Failure Bucket
  | _, [], b => Except.ok b
  | added, (u, r) :: rest, b =>
    if u ∈ added then Except.error Failure.invalidState
    else
      match h.writeFailure with
      | some e => Except.error e
      | none => batchPut h (u :: added) rest (b.put u r)

/-- Outcome of `addAll(urls)` on a bucket: the new contents, or the failure, in
which case the bucket keeps its contents. -/
def addAllResult (h : Host) (urls : List String) (b : Bucket) : Except Failure Bucket :=
  match fetchAll h urls with
  | Except.ok es => batchPut h [] es b
  | Except.error e => Except.error e

/-! Section: Host capabilities as promises -/

/-- The capability `caches.open(name)`. -/
def cachesOpen (h : Host) (name : String) : Promise Cache := fun w =>
  match h.openFailure name with
  | some e => (Settled.rejected e, w.record (HostCall.cachesOpen name))
  | none =>
    (Settled.fulfilled { name := name },
      { storage := w.storage.openBucket name, calls := w.calls ++ [HostCall.cachesOpen name] })

/-- The capability `cache.addAll(urls)`. -/
def Cache.addAll (h : Host) (cache : Cache) (urls : List String) : Promise Unit := fun w =>
  match addAllResult h urls ((w.storage.find cache.name).getD []) with
  | Except.ok nb =>
    (Settled.fulfilled (),
      { storage := w.storage.replace cache.name nb,
        calls := w.calls ++ [HostCall.cacheAddAll cache.name urls] })
  | Except.error e => (Settled.rejected e, w.record (HostCall.cacheAddAll cache.name urls))

/-- The capability `caches.match(request)`; `none` stands for `undefined`. -/
def cachesMatch (request : Request) : Promise (Option Response) := fun w =>
  (Settled.fulfilled (w.storage.matchRequest request), w.record (HostCall.cachesMatch request))

/-- The capability `fetch(request)`. -/
def fetch (h : Host) (request : Request) : Promise Response := fun w =>
  (h.network request, w.record (HostCall.fetch request))

/-- The logger `console.warn(reason)`; it returns `undefined`. -/
def consoleWarn (reason : Failure) : Promise Unit := fun w =>
  (Settled.fulfilled (), w.record (HostCall.consoleWarn reason))

/-! Section: Events -/

/-- Install event: `extended` lists the outcome of each promise given to `waitUntil`. -/
structure ExtendableEvent where
  extended : List (Settled Unit)
deriving DecidableEq, Repr

/-- Fetch event: the request and the outcome of each promise given to `respondWith`. -/
structure FetchEvent where
  request : Request
  responded : List (Settled Response)
deriving DecidableEq, Repr

/-- The method `event.waitUntil(p)`. -/
def ExtendableEvent.waitUntil (event : ExtendableEvent) (p : Promise Unit) :
    World → ExtendableEvent × World := fun w =>
  match p w with
  | (r, w1) => ({ extended := event.extended ++ [r] }, w1)

/-- The method `event.respondWith(p)`. -/
def FetchEvent.respondWith (event : FetchEvent) (p : Promise Response) :
    World → FetchEvent × World := fun w =>
  match p w with
  | (r, w1) => ({ event with responded := event.responded ++ [r] }, w1)

/-! Section: The script -/

/-- Bucket name constant of the script. -/
def CACHE_NAME : String := "agrokongo-v27"

/-- Asset list constant of the script. -/
def urlsToCache : List String :=
  ["/", "/static/css/main.css", "/static/js/app.js", "/static/icons/icon-192.png"]

/-- Install listener, with the two module constants as parameters. -/
def installWith (h : Host) (cacheName : String) (urls : List String) (event : ExtendableEvent) :
    World → ExtendableEvent × World :=
  event.waitUntil
    ((cachesOpen h cacheName).thenP
      (fun cache => (cache.addAll h urls).catchP consoleWarn))

/-- Install listener of the script. -/
def installHandler (h : Host) (event : ExtendableEvent) : World → ExtendableEvent × World :=
  installWith h CACHE_NAME urlsToCache event

/-- Fetch listener of the script.  In `response || fetch(event.request)` a stored
response is an object, hence truthy; `undefined` is falsy. -/
def fetchHandler (h : Host) (event : FetchEvent) : World → FetchEvent × World := fun w =>
  if event.request.method ≠ "GET" then (event, w)
  else
    event.respondWith
      ((cachesMatch event.request).thenP (fun response =>
        match response with
        | some r => Promise.resolve r
        | none => fetch h event.request)) w

/-! Section: Sample hosts and states -/

/-- Response with status 200 and the given body. -/
def okResponse (body : String) : Response := { status := 200, body := body }

/-- Host whose network answers every request with status 200 and body `body`. -/
def liveHost (body : String) : Host :=
  { network := fun _ => Settled.fulfilled (okResponse body),
    openFailure := fun _ => none,
    writeFailure := none }

/-- Host whose network rejects every request. -/
def offlineHost : Host :=
  { network := fun _ => Settled.rejected (Failure.network "offline"),
    openFailure := fun _ => none,
    writeFailure := none }

/-- Host on which no bucket can be opened. -/
def lockedHost : Host :=
  { network := fun _ => Settled.fulfilled (okResponse "live"),
    openFailure := fun _ => some (Failure.storage "denied"),
    writeFailure := none }

/-- World with no bucket and no call so far. -/
def emptyWorld : World := { storage := [], calls := [] }

/-- Storage holding a bucket of the previous version and, created after it, the
current bucket, both with an entry for `/`. -/
def twoVersions : World :=
  { storage := [("agrokongo-v26", [("/", okResponse "v26 page")]),
                (CACHE_NAME, [("/", okResponse "v27 page")])],
    calls := [] }

/-- Storage holding only a bucket of the previous version with an entry for `/`. -/
def oldVersionOnly : World :=
  { storage := [("agrokongo-v26", [("/", okResponse "v26 page")])], calls := [] }

/-- Storage holding a bucket of the previous version with an entry for `/` and,
created after it, the current bucket, still empty. -/
def staleAndEmpty : World :=
  { storage := [("agrokongo-v26", [("/", okResponse "v26 page")]), (CACHE_NAME, [])],
    calls := [] }

/-- Storage holding only the current bucket, with an entry for `/`. -/
def currentOnly : World :=
  { storage := [(CACHE_NAME, [("/", okResponse "v27 page")])], calls := [] }

/-- Fresh install event. -/
def freshInstall : ExtendableEvent := { extended := [] }

/-- Fresh fetch event for a request. -/
def freshFetch (request : Request) : FetchEvent := { request := request, responded := [] }

/-- The request `GET /`. -/
def getRoot : Request := { method := "GET", url := "/" }

/-! Section: Lemmas on the cache storage -/

theorem find_openBucket_self (s : CacheStorage) (name : String) :
    (s.openBucket name).find name = some ((s.find name).getD []) := by
  induction s with
  | nil => simp [CacheStorage.openBucket, CacheStorage.find]
  | cons p rest ih =>
    obtain ⟨n, b⟩ := p
    by_cases hn : n = name
    · simp [CacheStorage.openBucket, CacheStorage.find, hn]
    · simp [CacheStorage.openBucket, CacheStorage.find, hn, ih]

theorem find_openBucket_ne (s : CacheStorage) {name m : String} (hne : m ≠ name) :
    (s.openBucket name).find m = s.find m := by
  induction s with
  | nil =>
    have hne2 : ¬ name = m := fun h => hne h.symm
    simp [CacheStorage.openBucket, CacheStorage.find, hne2]
  | cons p rest ih =>
    obtain ⟨n, b⟩ := p
    by_cases hn : n = name
    · simp [CacheStorage.openBucket, CacheStorage.find, hn]
    · by_cases hm : n = m
      · subst hm
        simp [CacheStorage.openBucket, CacheStorage.find, hne]
      · simp [CacheStorage.openBucket, CacheStorage.find, hn, hm, ih]

theorem openBucket_of_find {s : CacheStorage} {name : String} {b : Bucket}
    (hf : s.find name = some b) : s.openBucket name = s := by
  induction s with
  | nil => simp [CacheStorage.find] at hf
  | cons p rest ih =>
    obtain ⟨n, c⟩ := p
    by_cases hn : n = name
    · simp [CacheStorage.openBucket, hn]
    · simp only [CacheStorage.find, hn, if_false] at hf
      simp [CacheStorage.openBucket, hn, ih hf]

theorem find_replace_self {s : CacheStorage} {name : String} {b : Bucket}
    (hf : s.find name = some b) (nb : Bucket) : (s.replace name nb).find name = some nb := by
  induction s with
  | nil => simp [CacheStorage.find] at hf
  | cons p rest ih =>
    obtain ⟨n, c⟩ := p
    by_cases hn : n = name
    · simp [CacheStorage.replace, CacheStorage.find, hn]
    · simp only [CacheStorage.find, hn, if_false] at hf
      simp [CacheStorage.replace, CacheStorage.find, hn, ih hf]

theorem find_replace_ne (s : CacheStorage) {name m : String} (hne : m ≠ name) (nb : Bucket) :
    (s.replace name nb).find m = s.find m := by
  induction s with
  | nil => simp [CacheStorage.replace]
  | cons p rest ih =>
    obtain ⟨n, c⟩ := p
    by_cases hn : n = name
    · have hm : ¬ name = m := fun h => hne h.symm
      simp [CacheStorage.replace, CacheStorage.find, hn, hm]
    · by_cases hm : n = m
      · subst hm
        simp [CacheStorage.replace, CacheStorage.find, hne]
      · simp [CacheStorage.replace, CacheStorage.find, hn, hm, ih]

theorem replace_of_find {s : CacheStorage} {name : String} {b : Bucket}
    (hf : s.find name = some b) : s.replace name b = s := by
  induction s with
  | nil => simp [CacheStorage.replace]
  | cons p rest ih =>
    obtain ⟨n, c⟩ := p
    by_cases hn : n = name
    · simp only [CacheStorage.find, hn, if_true, Option.some.injEq] at hf
      simp [CacheStorage.replace, hn, hf]
    · simp only [CacheStorage.find, hn, if_false] at hf
      simp [CacheStorage.replace, hn, ih hf]

theorem before_openBucket (s : CacheStorage) (name : String) :
    (s.openBucket name).before name = s.before name := by
  induction s with
  | nil => simp [CacheStorage.openBucket, CacheStorage.before]
  | cons p rest ih =>
    obtain ⟨n, c⟩ := p
    by_cases hn : n = name
    · simp [CacheStorage.openBucket, CacheStorage.before, hn]
    · simp only [CacheStorage.before] at ih
      simp only [CacheStorage.openBucket, CacheStorage.before, hn, if_false, List.takeWhile_cons,
        ne_eq, not_false_eq_true, decide_True, if_true, ih]

theorem before_replace (s : CacheStorage) (name : String) (nb : Bucket) :
    (s.replace name nb).before name = s.before name := by
  induction s with
  | nil => simp [CacheStorage.replace]
  | cons p rest ih =>
    obtain ⟨n, c⟩ := p
    by_cases hn : n = name
    · simp [CacheStorage.replace, CacheStorage.before, hn, List.takeWhile_cons]
    · simp only [CacheStorage.before] at ih
      simp only [CacheStorage.replace, CacheStorage.before, hn, if_false, List.takeWhile_cons,
        ne_eq, not_false_eq_true, decide_True, if_true, ih]

/-- A key of the bucket called `name` is found by the storage-wide lookup in that
bucket when no bucket created earlier holds it. -/
theorem matchRequest_of_first {s : CacheStorage} {name : String} {b : Bucket} {req : Request}
    {r : Response} (hf : s.find name = some b) (hb : b.matchRequest req = some r)
    (hearlier : ∀ p ∈ s.before name, p.2.matchRequest req = none) :
    s.matchRequest req = some r := by
  induction s with
  | nil => simp [CacheStorage.find] at hf
  | cons p rest ih =>
    obtain ⟨n, c⟩ := p
    by_cases hn : n = name
    · simp only [CacheStorage.find, hn, if_true, Option.some.injEq] at hf
      simp [CacheStorage.matchRequest, hf, hb]
    · simp only [CacheStorage.find, hn, if_false] at hf
      have hc : c.matchRequest req = none :=
        hearlier (n, c) (by simp [CacheStorage.before, List.takeWhile_cons, hn])
      have hrest : ∀ p ∈ CacheStorage.before rest name, p.2.matchRequest req = none := by
        intro p hp
        apply hearlier p
        simp only [CacheStorage.before] at hp
        simp only [CacheStorage.before, List.takeWhile_cons, ne_eq, hn, not_false_eq_true,
          decide_True, if_true]
        exact List.mem_cons_of_mem _ hp
      simp [CacheStorage.matchRequest, hc, ih hf hrest]

/-- A key of any bucket is found by the storage-wide lookup. -/
theorem matchRequest_of_find {s : CacheStorage} {name : String} {b : Bucket} {req : Request}
    {r : Response} (hf : s.find name = some b) (hb : b.matchRequest req = some r) :
    ∃ r1, s.matchRequest req = some r1 := by
  induction s with
  | nil => simp [CacheStorage.find] at hf
  | cons p rest ih =>
    obtain ⟨n, c⟩ := p
    by_cases hn : n = name
    · simp only [CacheStorage.find, hn, if_true, Option.some.injEq] at hf
      exact ⟨r, by simp [CacheStorage.matchRequest, hf, hb]⟩
    · simp only [CacheStorage.find, hn, if_false] at hf
      cases hc : c.matchRequest req with
      | some r0 => exact ⟨r0, by simp [CacheStorage.matchRequest, hc]⟩
      | none =>
        obtain ⟨r1, hr1⟩ := ih hf
        exact ⟨r1, by simp [CacheStorage.matchRequest, hc, hr1]⟩

/-! Section: Lemmas on buckets and on `addAll` -/

theorem matchRequest_append (a c : Bucket) (req : Request) :
    Bucket.matchRequest (a ++ c) req =
      match Bucket.matchRequest a req with
      | some r => some r
      | none => Bucket.matchRequest c req := by
  induction a with
  | nil => simp [Bucket.matchRequest]
  | cons p rest ih =>
    obtain ⟨u, r⟩ := p
    by_cases hc : req.method = "GET" ∧ u = req.url
    · simp [Bucket.matchRequest, hc]
    · simp only [List.cons_append, Bucket.matchRequest, hc, if_false]
      exact ih

theorem matchRequest_filter_none (b : Bucket) (ks : List String) (req : Request)
    (hk : req.url ∈ ks) :
    Bucket.matchRequest (b.filter (fun e => decide (e.1 ∉ ks))) req = none := by
  induction b with
  | nil => simp [Bucket.matchRequest]
  | cons p rest ih =>
    obtain ⟨u, r⟩ := p
    by_cases hu : u ∈ ks
    · simpa [List.filter_cons, hu] using ih
    · have hne : ¬ (req.method = "GET" ∧ u = req.url) := by
        rintro ⟨_, rfl⟩
        exact hu hk
      simp only [List.filter_cons, hu, not_false_eq_true, decide_True, if_true,
        Bucket.matchRequest, hne, if_false, ih]

theorem matchRequest_of_mem_keys (es : Bucket) (u : String) (hu : u ∈ es.map Prod.fst) :
    ∃ r, (u, r) ∈ es ∧ Bucket.matchRequest es { method := "GET", url := u } = some r := by
  induction es with
  | nil => simp at hu
  | cons p rest ih =>
    obtain ⟨v, r⟩ := p
    by_cases hv : v = u
    · exact ⟨r, by simp [hv], by simp [Bucket.matchRequest, hv]⟩
    · have hu2 : u ∈ rest.map Prod.fst := by
        simp only [List.map_cons, List.mem_cons] at hu
        rcases hu with hu | hu
        · exact absurd hu.symm hv
        · exact hu
      obtain ⟨r1, hmem, hmatch⟩ := ih hu2
      exact ⟨r1, List.mem_cons_of_mem _ hmem, by simp [Bucket.matchRequest, hv, hmatch]⟩

theorem mem_keys_of_matchRequest {b : Bucket} {req : Request} {r : Response}
    (hm : Bucket.matchRequest b req = some r) : req.url ∈ b.keys := by
  induction b with
  | nil => simp [Bucket.matchRequest] at hm
  | cons p rest ih =>
    obtain ⟨v, r0⟩ := p
    by_cases hc : req.method = "GET" ∧ v = req.url
    · simp [Bucket.keys, hc.2]
    · simp only [Bucket.matchRequest, hc, if_false] at hm
      have := ih hm
      simp only [Bucket.keys] at this
      simp [Bucket.keys, this]

theorem fetchAll_ok {h : Host} {urls : List String} {es : List (String × Response)}
    (hok : fetchAll h urls = Except.ok es) :
    es.map Prod.fst = urls ∧
      ∀ e ∈ es, h.network { method := "GET", url := e.1 } = Settled.fulfilled e.2 := by
  induction urls generalizing es with
  | nil =>
    simp only [fetchAll, Except.ok.injEq] at hok
    subst hok
    simp
  | cons u us ih =>
    simp only [fetchAll] at hok
    cases hn : h.network { method := "GET", url := u } with
    | rejected e => simp [hn] at hok
    | fulfilled r =>
      rw [hn] at hok
      by_cases hc : r.cacheable = true
      · simp only [hc, if_true] at hok
        cases hrest : fetchAll h us with
        | error e => simp [hrest] at hok
        | ok es1 =>
          simp only [hrest, Except.ok.injEq] at hok
          subst hok
          obtain ⟨h1, h2⟩ := ih hrest
          refine ⟨by simp [h1], ?_⟩
          intro e he
          simp only [List.mem_cons] at he
          rcases he with rfl | he
          · exact hn
          · exact h2 e he
      · simp [hc] at hok

theorem batchPut_ok {h : Host} {added : List String} {es : List (String × Response)}
    {b b1 : Bucket} (hok : batchPut h added es b = Except.ok b1) :
    (∀ k ∈ es.map Prod.fst, k ∉ added) ∧ (es.map Prod.fst).Nodup ∧
      b1 = b.filter (fun e => decide (e.1 ∉ es.map Prod.fst)) ++ es := by
  induction es generalizing added b with
  | nil =>
    simp only [batchPut, Except.ok.injEq] at hok
    subst hok
    simp
  | cons p rest ih =>
    obtain ⟨u, r⟩ := p
    simp only [batchPut] at hok
    by_cases hu : u ∈ added
    · simp [hu] at hok
    · simp only [hu, if_false] at hok
      cases hw : h.writeFailure with
      | some e => simp [hw] at hok
      | none =>
        simp only [hw] at hok
        obtain ⟨h1, h2, h3⟩ := ih hok
        have hur : u ∉ rest.map Prod.fst := fun hmem => h1 u hmem (List.mem_cons_self _ _)
        refine ⟨?_, ?_, ?_⟩
        · intro k hk
          simp only [List.map_cons, List.mem_cons] at hk
          rcases hk with rfl | hk
          · exact hu
          · exact fun hka => h1 k hk (List.mem_cons_of_mem _ hka)
        · simp only [List.map_cons, List.nodup_cons]
          exact ⟨hur, h2⟩
        · rw [h3]
          simp only [Bucket.put, List.filter_append, List.filter_filter, List.map_cons,
            List.mem_cons, List.filter_cons, List.filter_nil, hur, not_false_eq_true,
            decide_True, if_true, List.append_assoc, List.singleton_append]
          congr 1
          apply List.filter_congr
          intro e _
          by_cases h1e : e.1 = u <;> by_cases h2e : e.1 ∈ rest.map Prod.fst <;>
            simp [h1e, h2e]

theorem batchPut_any_bucket {h : Host} {added : List String} {es : List (String × Response)}
    {b b1 : Bucket} (hok : batchPut h added es b = Except.ok b1) (c : Bucket) :
    ∃ c1, batchPut h added es c = Except.ok c1 := by
  induction es generalizing added b c with
  | nil => exact ⟨c, by simp [batchPut]⟩
  | cons p rest ih =>
    obtain ⟨u, r⟩ := p
    simp only [batchPut] at hok
    by_cases hu : u ∈ added
    · simp [hu] at hok
    · simp only [hu, if_false] at hok
      cases hw : h.writeFailure with
      | some e => simp [hw] at hok
      | none =>
        simp only [hw] at hok
        obtain ⟨c1, hc1⟩ := ih hok (c.put u r)
        exact ⟨c1, by simp [batchPut, hu, hw, hc1]⟩

/-- Repeating a successful `addAll` on its own result changes nothing. -/
theorem addAllResult_idem {h : Host} {urls : List String} {b b1 : Bucket}
    (hok : addAllResult h urls b = Except.ok b1) : addAllResult h urls b1 = Except.ok b1 := by
  simp only [addAllResult] at hok ⊢
  cases hf : fetchAll h urls with
  | error e => simp [hf] at hok
  | ok es =>
    simp only [hf] at hok ⊢
    obtain ⟨c1, hc1⟩ := batchPut_any_bucket hok b1
    obtain ⟨_, _, hb1⟩ := batchPut_ok hok
    obtain ⟨_, _, hcb⟩ := batchPut_ok hc1
    rw [hc1, hcb]
    congr 1
    have hes : es.filter (fun e => decide (e.1 ∉ es.map Prod.fst)) = [] := by
      rw [List.filter_eq_nil_iff]
      intro e he
      have : e.1 ∈ es.map Prod.fst := List.mem_map_of_mem Prod.fst he
      simp [this]
    conv_rhs => rw [hb1]
    conv_lhs => rw [hb1]
    simp only [List.filter_append, List.filter_filter, hes, List.append_nil, Bool.and_self]

/-- A failure of `addAll` does not depend on the contents of the bucket. -/
theorem addAllResult_error_any_bucket {h : Host} {urls : List String} {b : Bucket} {e : Failure}
    (herr : addAllResult h urls b = Except.error e) (c : Bucket) :
    ∃ e1, addAllResult h urls c = Except.error e1 := by
  cases hc : addAllResult h urls c with
  | error e1 => exact ⟨e1, rfl⟩
  | ok c1 =>
    exfalso
    simp only [addAllResult] at herr hc
    cases hf : fetchAll h urls with
    | error e0 => simp [hf] at hc
    | ok es =>
      simp only [hf] at herr hc
      obtain ⟨b1, hb1⟩ := batchPut_any_bucket hc b
      rw [hb1] at herr
      cases herr

/-- After a successful `addAll`, every listed URL is a key of the bucket and is
stored with the response the network gave for it. -/
theorem addAllResult_stored {h : Host} {urls : List String} {b b1 : Bucket}
    (hok : addAllResult h urls b = Except.ok b1) (u : String) (hu : u ∈ urls) :
    u ∈ b1.keys ∧ ∃ r, h.network { method := "GET", url := u } = Settled.fulfilled r ∧
      Bucket.matchRequest b1 { method := "GET", url := u } = some r := by
  simp only [addAllResult] at hok
  cases hf : fetchAll h urls with
  | error e => simp [hf] at hok
  | ok es =>
    simp only [hf] at hok
    obtain ⟨hkeys, hnet⟩ := fetchAll_ok hf
    obtain ⟨_, _, hb1⟩ := batchPut_ok hok
    have hmem : u ∈ es.map Prod.fst := by rw [hkeys]; exact hu
    obtain ⟨r, hr, hmatch⟩ := matchRequest_of_mem_keys es u hmem
    have hfound : Bucket.matchRequest b1 { method := "GET", url := u } = some r := by
      rw [hb1, matchRequest_append, matchRequest_filter_none b _ _ hmem]
      exact hmatch
    exact ⟨mem_keys_of_matchRequest hfound, r, hnet (u, r) hr, hfound⟩

theorem matchRequest_none_of_forall {s : CacheStorage} {req : Request}
    (hall : ∀ p ∈ s, Bucket.matchRequest p.2 req = none) : s.matchRequest req = none := by
  induction s with
  | nil => simp [CacheStorage.matchRequest]
  | cons p rest ih =>
    obtain ⟨n, c⟩ := p
    have hc : Bucket.matchRequest c req = none := hall (n, c) (List.mem_cons_self _ _)
    have hrest : ∀ p ∈ rest, Bucket.matchRequest p.2 req = none :=
      fun p hp => hall p (List.mem_cons_of_mem _ hp)
    simp [CacheStorage.matchRequest, hc, ih hrest]

/-! Section: The handlers, case by case -/

theorem installWith_open_failed {h : Host} {name : String} {f : Failure}
    (ho : h.openFailure name = some f) (urls : List String) (event : ExtendableEvent)
    (w : World) :
    installWith h name urls event w =
      ({ extended := event.extended ++ [Settled.rejected f] },
        { storage := w.storage, calls := w.calls ++ [HostCall.cachesOpen name] }) := by
  simp [installWith, ExtendableEvent.waitUntil, Promise.thenP, cachesOpen, ho, World.record]

theorem installWith_addAll_ok {h : Host} {name : String} {urls : List String} {w : World}
    {nb : Bucket} (ho : h.openFailure name = none)
    (ha : addAllResult h urls ((w.storage.find name).getD []) = Except.ok nb)
    (event : ExtendableEvent) :
    installWith h name urls event w =
      ({ extended := event.extended ++ [Settled.fulfilled ()] },
        { storage := (w.storage.openBucket name).replace name nb,
          calls := w.calls ++ [HostCall.cachesOpen name, HostCall.cacheAddAll name urls] }) := by
  simp [installWith, ExtendableEvent.waitUntil, Promise.thenP, Promise.catchP, cachesOpen,
    Cache.addAll, ho, find_openBucket_self, ha]

theorem installWith_addAll_failed {h : Host} {name : String} {urls : List String} {w : World}
    {f : Failure} (ho : h.openFailure name = none)
    (ha : addAllResult h urls ((w.storage.find name).getD []) = Except.error f)
    (event : ExtendableEvent) :
    installWith h name urls event w =
      ({ extended := event.extended ++ [Settled.fulfilled ()] },
        { storage := w.storage.openBucket name,
          calls := w.calls ++ [HostCall.cachesOpen name, HostCall.cacheAddAll name urls,
            HostCall.consoleWarn f] }) := by
  simp [installWith, ExtendableEvent.waitUntil, Promise.thenP, Promise.catchP, cachesOpen,
    Cache.addAll, consoleWarn, World.record, ho, find_openBucket_self, ha]

theorem fetchHandler_other_method {event : FetchEvent} (hm : event.request.method ≠ "GET")
    (h : Host) (w : World) : fetchHandler h event w = (event, w) := by
  simp [fetchHandler, hm]

theorem fetchHandler_hit {event : FetchEvent} {w : World} {r : Response}
    (hm : event.request.method = "GET") (hit : w.storage.matchRequest event.request = some r)
    (h : Host) :
    fetchHandler h event w =
      ({ event with responded := event.responded ++ [Settled.fulfilled r] },
        { storage := w.storage, calls := w.calls ++ [HostCall.cachesMatch event.request] }) := by
  simp [fetchHandler, hm, FetchEvent.respondWith, Promise.thenP, cachesMatch, hit,
    Promise.resolve, World.record]

theorem fetchHandler_miss {event : FetchEvent} {w : World}
    (hm : event.request.method = "GET") (miss : w.storage.matchRequest event.request = none)
    (h : Host) :
    fetchHandler h event w =
      ({ event with responded := event.responded ++ [h.network event.request] },
        { storage := w.storage,
          calls := w.calls ++
            [HostCall.cachesMatch event.request, HostCall.fetch event.request] }) := by
  simp [fetchHandler, hm, FetchEvent.respondWith, Promise.thenP, cachesMatch, miss,
    fetch, World.record]

/-! Section: Fetch listener -/

/-- C1, counterexample: the storage holds the bucket of the previous version, created
first, and the bucket named by `CACHE_NAME`; both have the key `GET /`.  The key is
in the `CACHE_NAME` bucket with the response "v27 page", yet the handler responds
with "v26 page", the entry of the older bucket. -/
theorem fetch_hit_answers_from_older_bucket :
    getRoot.method = "GET" ∧
    (twoVersions.storage.find CACHE_NAME).map (fun b => Bucket.matchRequest b getRoot)
      = some (some (okResponse "v27 page")) ∧
    (fetchHandler (liveHost "later") (freshFetch getRoot) twoVersions).1.responded
      = [Settled.fulfilled (okResponse "v26 page")] ∧
    Settled.fulfilled (okResponse "v26 page") ≠ Settled.fulfilled (okResponse "v27 page") := by
  decide

/-- C1, amended: for a GET request whose identity is a key of the bucket named by
`CACHE_NAME`, whatever else the storage holds, the handler makes one storage lookup
and no network call, and it responds with the stored response of the first bucket in
creation order that holds the key; when no bucket created before the `CACHE_NAME`
bucket holds the key, that is the response stored in the `CACHE_NAME` bucket. -/
theorem fetch_hit_served_from_first_bucket (h : Host) (event : FetchEvent) (w : World)
    (b : Bucket) (r : Response)
    (hget : event.request.method = "GET")
    (hbucket : w.storage.find CACHE_NAME = some b)
    (hkey : Bucket.matchRequest b event.request = some r) :
    (fetchHandler h event w).2.calls = w.calls ++ [HostCall.cachesMatch event.request] ∧
    (∃ r1, w.storage.matchRequest event.request = some r1 ∧
      (fetchHandler h event w).1.responded = event.responded ++ [Settled.fulfilled r1]) ∧
    ((∀ p ∈ w.storage.before CACHE_NAME, Bucket.matchRequest p.2 event.request = none) →
      (fetchHandler h event w).1.responded = event.responded ++ [Settled.fulfilled r]) := by
  obtain ⟨r1, hr1⟩ := matchRequest_of_find hbucket hkey
  refine ⟨?_, ⟨r1, hr1, ?_⟩, ?_⟩
  · rw [fetchHandler_hit hget hr1]
  · rw [fetchHandler_hit hget hr1]
  · intro hearlier
    rw [fetchHandler_hit hget (matchRequest_of_first hbucket hkey hearlier)]

/-- Witness for C1: the storage holds only the current bucket. -/
theorem fetch_hit_served_from_first_bucket_witness :
    getRoot.method = "GET" ∧
    currentOnly.storage.find CACHE_NAME = some [("/", okResponse "v27 page")] ∧
    Bucket.matchRequest [("/", okResponse "v27 page")] getRoot = some (okResponse "v27 page") ∧
    (fetchHandler offlineHost (freshFetch getRoot) currentOnly).2.calls
      = [HostCall.cachesMatch getRoot] ∧
    (fetchHandler offlineHost (freshFetch getRoot) currentOnly).1.responded
      = [Settled.fulfilled (okResponse "v27 page")] :=
  have t := fetch_hit_served_from_first_bucket offlineHost (freshFetch getRoot) currentOnly
    [("/", okResponse "v27 page")] (okResponse "v27 page") (by decide) (by decide) (by decide)
  ⟨by decide, by decide, by decide, t.1, t.2.2 (by decide)⟩

/-- C2, counterexample: the key `GET /` is absent from the bucket named by
`CACHE_NAME`, which is empty, but the bucket of the previous version holds it.  The
handler makes no network call and responds with the stored "v26 page", not with the
outcome of a network call, which would have been "later". -/
theorem fetch_miss_in_bucket_answers_from_older_bucket :
    getRoot.method = "GET" ∧
    (staleAndEmpty.storage.find CACHE_NAME).map (fun b => Bucket.matchRequest b getRoot)
      = some none ∧
    (fetchHandler (liveHost "later") (freshFetch getRoot) staleAndEmpty).2.calls
      = [HostCall.cachesMatch getRoot] ∧
    (fetchHandler (liveHost "later") (freshFetch getRoot) staleAndEmpty).1.responded
      = [Settled.fulfilled (okResponse "v26 page")] ∧
    (liveHost "later").network getRoot ≠ Settled.fulfilled (okResponse "v26 page") := by
  decide

/-- C2, amended: for a GET request whose identity is absent from every bucket of the
host cache storage, the bucket named by `CACHE_NAME` included, the handler makes one
storage lookup and then exactly one network call, for that same request, and its
response is exactly the outcome of that call, fulfilled or rejected. -/
theorem fetch_miss_goes_to_network (h : Host) (event : FetchEvent) (w : World)
    (hget : event.request.method = "GET")
    (habsent : ∀ p ∈ w.storage, Bucket.matchRequest p.2 event.request = none) :
    (fetchHandler h event w).2.calls =
      w.calls ++ [HostCall.cachesMatch event.request, HostCall.fetch event.request] ∧
    (fetchHandler h event w).1.responded = event.responded ++ [h.network event.request] := by
  rw [fetchHandler_miss hget (matchRequest_none_of_forall habsent)]
  exact ⟨rfl, rfl⟩

/-- Witness for C2: a miss while the network is down; the rejection is the response. -/
theorem fetch_miss_goes_to_network_witness :
    getRoot.method = "GET" ∧
    (∀ p ∈ emptyWorld.storage, Bucket.matchRequest p.2 getRoot = none) ∧
    (fetchHandler offlineHost (freshFetch getRoot) emptyWorld).2.calls
      = [HostCall.cachesMatch getRoot, HostCall.fetch getRoot] ∧
    (fetchHandler offlineHost (freshFetch getRoot) emptyWorld).1.responded
      = [Settled.rejected (Failure.network "offline")] :=
  ⟨by decide, by decide,
    fetch_miss_goes_to_network offlineHost (freshFetch getRoot) emptyWorld (by decide)
      (by decide)⟩

/-- C3: for a request whose method is not exactly "GET" the handler returns with the
event and the world untouched: `respondWith` is not called, no storage lookup and no
network call are made.  For a request whose method is "GET" it calls `respondWith`
exactly once. -/
theorem fetch_only_get_is_intercepted (h : Host) (event : FetchEvent) (w : World) :
    (event.request.method ≠ "GET" → fetchHandler h event w = (event, w)) ∧
    (event.request.method = "GET" →
      ∃ r, (fetchHandler h event w).1.responded = event.responded ++ [r]) := by
  refine ⟨fun hm => fetchHandler_other_method hm h w, fun hm => ?_⟩
  cases hs : w.storage.matchRequest event.request with
  | some r => exact ⟨Settled.fulfilled r, by rw [fetchHandler_hit hm hs]⟩
  | none => exact ⟨h.network event.request, by rw [fetchHandler_miss hm hs]⟩

/-- Witness for C3: a POST and a lower-case "get" fall through, a GET is answered. -/
theorem fetch_only_get_is_intercepted_witness :
    fetchHandler (liveHost "live") (freshFetch { method := "POST", url := "/" }) currentOnly
      = (freshFetch { method := "POST", url := "/" }, currentOnly) ∧
    fetchHandler (liveHost "live") (freshFetch { method := "get", url := "/" }) currentOnly
      = (freshFetch { method := "get", url := "/" }, currentOnly) ∧
    ∃ r, (fetchHandler (liveHost "live") (freshFetch getRoot) currentOnly).1.responded
      = [] ++ [r] :=
  ⟨(fetch_only_get_is_intercepted (liveHost "live")
      (freshFetch { method := "POST", url := "/" }) currentOnly).1 (by decide),
    (fetch_only_get_is_intercepted (liveHost "live")
      (freshFetch { method := "get", url := "/" }) currentOnly).1 (by decide),
    (fetch_only_get_is_intercepted (liveHost "live") (freshFetch getRoot) currentOnly).2
      (by decide)⟩

/-- C7: the fetch handler leaves the host cache storage exactly as it was, for every
request, hit or miss, whatever the network answers. -/
theorem fetch_never_writes_storage (h : Host) (event : FetchEvent) (w : World) :
    (fetchHandler h event w).2.storage = w.storage := by
  by_cases hm : event.request.method = "GET"
  · cases hs : w.storage.matchRequest event.request with
    | some r => rw [fetchHandler_hit hm hs]
    | none => rw [fetchHandler_miss hm hs]
  · rw [fetchHandler_other_method hm]

/-! Section: Install listener -/

/-- C4: when the bucket has been opened, the promise given to `waitUntil` is
fulfilled for every outcome of `addAll`.  When `addAll` fails, its failure is passed
once to `console.warn`, and `addAll` is called once only; when it succeeds, nothing
is logged. -/
theorem install_swallows_addAll_failure (h : Host) (event : ExtendableEvent) (w : World)
    (hopen : h.openFailure CACHE_NAME = none) :
    (installHandler h event w).1.extended = event.extended ++ [Settled.fulfilled ()] ∧
    (∀ f, addAllResult h urlsToCache ((w.storage.find CACHE_NAME).getD []) = Except.error f →
      (installHandler h event w).2.calls =
        w.calls ++ [HostCall.cachesOpen CACHE_NAME,
          HostCall.cacheAddAll CACHE_NAME urlsToCache, HostCall.consoleWarn f]) ∧
    (∀ nb, addAllResult h urlsToCache ((w.storage.find CACHE_NAME).getD []) = Except.ok nb →
      (installHandler h event w).2.calls =
        w.calls ++ [HostCall.cachesOpen CACHE_NAME,
          HostCall.cacheAddAll CACHE_NAME urlsToCache]) := by
  unfold installHandler
  refine ⟨?_, ?_, ?_⟩
  · cases ha : addAllResult h urlsToCache ((w.storage.find CACHE_NAME).getD []) with
    | ok nb => rw [installWith_addAll_ok hopen ha]
    | error f => rw [installWith_addAll_failed hopen ha]
  · intro f ha
    rw [installWith_addAll_failed hopen ha]
  · intro nb ha
    rw [installWith_addAll_ok hopen ha]

/-- Witness for C4: install while the network is down. -/
theorem install_swallows_addAll_failure_witness :
    offlineHost.openFailure CACHE_NAME = none ∧
    addAllResult offlineHost urlsToCache ((emptyWorld.storage.find CACHE_NAME).getD [])
      = Except.error (Failure.network "offline") ∧
    (installHandler offlineHost freshInstall emptyWorld).1.extended
      = [Settled.fulfilled ()] ∧
    (installHandler offlineHost freshInstall emptyWorld).2.calls
      = [HostCall.cachesOpen CACHE_NAME, HostCall.cacheAddAll CACHE_NAME urlsToCache,
          HostCall.consoleWarn (Failure.network "offline")] :=
  have t := install_swallows_addAll_failure offlineHost freshInstall emptyWorld rfl
  ⟨rfl, rfl, t.1, t.2.1 (Failure.network "offline") rfl⟩

/-- C5: the install handler opens one bucket, the one named "agrokongo-v27"; when the
open succeeds its next and only `addAll` call is on that bucket with the whole asset
list in its declared order; when that `addAll` succeeds, the bucket afterwards has
every path of the list among its keys. -/
theorem install_opens_bucket_and_adds_list (h : Host) (event : ExtendableEvent) (w : World) :
    CACHE_NAME = "agrokongo-v27" ∧
    urlsToCache =
      ["/", "/static/css/main.css", "/static/js/app.js", "/static/icons/icon-192.png"] ∧
    (∃ rest, (installHandler h event w).2.calls =
        w.calls ++ HostCall.cachesOpen CACHE_NAME :: rest ∧
      (∀ n, HostCall.cachesOpen n ∉ rest) ∧
      (h.openFailure CACHE_NAME = none →
        ∃ tail, rest = HostCall.cacheAddAll CACHE_NAME urlsToCache :: tail ∧
          ∀ n us, HostCall.cacheAddAll n us ∉ tail)) ∧
    (∀ nb, h.openFailure CACHE_NAME = none →
      addAllResult h urlsToCache ((w.storage.find CACHE_NAME).getD []) = Except.ok nb →
      (installHandler h event w).2.storage.find CACHE_NAME = some nb ∧
        ∀ u ∈ urlsToCache, u ∈ nb.keys) := by
  refine ⟨rfl, rfl, ?_, ?_⟩
  · unfold installHandler
    cases hopen : h.openFailure CACHE_NAME with
    | some f =>
      refine ⟨[], ?_, ?_, ?_⟩
      · rw [installWith_open_failed hopen]
      · simp
      · intro hc
        cases hc
    | none =>
      cases ha : addAllResult h urlsToCache ((w.storage.find CACHE_NAME).getD []) with
      | ok nb =>
        refine ⟨[HostCall.cacheAddAll CACHE_NAME urlsToCache], ?_, ?_, ?_⟩
        · rw [installWith_addAll_ok hopen ha]
        · simp
        · intro _
          exact ⟨[], rfl, by simp⟩
      | error f =>
        refine ⟨[HostCall.cacheAddAll CACHE_NAME urlsToCache, HostCall.consoleWarn f],
          ?_, ?_, ?_⟩
        · rw [installWith_addAll_failed hopen ha]
        · simp
        · intro _
          exact ⟨[HostCall.consoleWarn f], rfl, by simp⟩
  · intro nb hopen ha
    unfold installHandler
    rw [installWith_addAll_ok hopen ha]
    refine ⟨find_replace_self (find_openBucket_self _ _) nb, ?_⟩
    intro u hu
    exact (addAllResult_stored ha u hu).1

/-- Witness for C5: install on an empty storage with the network up. -/
theorem install_opens_bucket_and_adds_list_witness :
    (liveHost "live").openFailure CACHE_NAME = none ∧
    (installHandler (liveHost "live") freshInstall emptyWorld).2.calls
      = [HostCall.cachesOpen "agrokongo-v27",
          HostCall.cacheAddAll "agrokongo-v27"
            ["/", "/static/css/main.css", "/static/js/app.js",
              "/static/icons/icon-192.png"]] ∧
    ∀ u ∈ urlsToCache,
      u ∈ Bucket.keys (urlsToCache.map (fun u => (u, okResponse "live"))) :=
  ⟨rfl, by decide,
    ((install_opens_bucket_and_adds_list (liveHost "live") freshInstall emptyWorld).2.2.2
      (urlsToCache.map (fun u => (u, okResponse "live"))) rfl rfl).2⟩

/-- C10: when opening the bucket named by `CACHE_NAME` fails, the only host call is
that `caches.open`: `addAll` is not called, nothing is passed to `console.warn`, the
storage is untouched, and the promise given to `waitUntil` is rejected with the
failure of the open. -/
theorem install_open_failure_propagates (h : Host) (event : ExtendableEvent) (w : World)
    (f : Failure) (hopen : h.openFailure CACHE_NAME = some f) :
    installHandler h event w =
      ({ extended := event.extended ++ [Settled.rejected f] },
        { storage := w.storage, calls := w.calls ++ [HostCall.cachesOpen CACHE_NAME] }) := by
  unfold installHandler
  exact installWith_open_failed hopen urlsToCache event w

/-- Witness for C10: a host on which no bucket can be opened. -/
theorem install_open_failure_propagates_witness :
    lockedHost.openFailure CACHE_NAME = some (Failure.storage "denied") ∧
    installHandler lockedHost freshInstall oldVersionOnly =
      ({ extended := [] ++ [Settled.rejected (Failure.storage "denied")] },
        { storage := oldVersionOnly.storage,
          calls := oldVersionOnly.calls ++ [HostCall.cachesOpen CACHE_NAME] }) :=
  ⟨rfl, install_open_failure_propagates lockedHost freshInstall oldVersionOnly
    (Failure.storage "denied") rfl⟩

/-- C8: install is idempotent for a fixed bucket name, asset list and host behaviour:
the cache storage after running the install handler twice equals the cache storage
after running it once; this holds for every name and list, and so for the constants
of the script. -/
theorem install_twice_same_storage (h : Host) (name : String) (urls : List String)
    (e1 e2 : ExtendableEvent) (w : World) :
    (installWith h name urls e2 (installWith h name urls e1 w).2).2.storage =
        (installWith h name urls e1 w).2.storage ∧
    (installHandler h e2 (installHandler h e1 w).2).2.storage =
        (installHandler h e1 w).2.storage := by
  have key : ∀ (name : String) (urls : List String),
      (installWith h name urls e2 (installWith h name urls e1 w).2).2.storage =
        (installWith h name urls e1 w).2.storage := by
    intro name urls
    cases hopen : h.openFailure name with
    | some f =>
      rw [installWith_open_failed hopen, installWith_open_failed hopen]
    | none =>
      have hfind := find_openBucket_self w.storage name
      cases ha : addAllResult h urls ((w.storage.find name).getD []) with
      | ok nb =>
        rw [installWith_addAll_ok hopen ha]
        have hnb : ((w.storage.openBucket name).replace name nb).find name = some nb :=
          find_replace_self hfind nb
        have ha2 : addAllResult h urls
            (((({ storage := (w.storage.openBucket name).replace name nb,
                  calls := w.calls ++
                    [HostCall.cachesOpen name, HostCall.cacheAddAll name urls] } :
                World).storage).find name).getD []) = Except.ok nb := by
          simp only [hnb, Option.getD_some]
          exact addAllResult_idem ha
        rw [installWith_addAll_ok hopen ha2]
        simp only [openBucket_of_find hnb, replace_of_find hnb]
      | error f =>
        rw [installWith_addAll_failed hopen ha]
        have ha2 : addAllResult h urls
            (((({ storage := w.storage.openBucket name,
                  calls := w.calls ++
                    [HostCall.cachesOpen name, HostCall.cacheAddAll name urls,
                      HostCall.consoleWarn f] } : World).storage).find name).getD [])
              = Except.error f := by
          simp only [hfind, Option.getD_some]
          exact ha
        rw [installWith_addAll_failed hopen ha2]
        simp only [openBucket_of_find hfind]
  exact ⟨key name urls, key CACHE_NAME urlsToCache⟩

/-- C9: install touches only the bucket it is run with.  Every bucket whose name
differs from that name is found with the same contents after install as before, for
every behaviour of the host.  Running install with name `A` and then with a different
name `B` leaves the bucket `A` exactly as the first install left it, and when the
second open and `addAll` succeed the bucket `B` holds every path of the asset list
with the response the network gave for it. -/
theorem install_touches_only_its_bucket (hA hB : Host) (A B : String) (urls : List String)
    (eA eB : ExtendableEvent) (w : World) (hAB : A ≠ B) :
    (∀ other, other ≠ A →
      (installWith hA A urls eA w).2.storage.find other = w.storage.find other) ∧
    (installWith hB B urls eB (installWith hA A urls eA w).2).2.storage.find A =
      (installWith hA A urls eA w).2.storage.find A ∧
    (hA.openFailure A = none → ∃ b, (installWith hA A urls eA w).2.storage.find A = some b) ∧
    (∀ nb, hB.openFailure B = none →
      addAllResult hB urls (((installWith hA A urls eA w).2.storage.find B).getD [])
        = Except.ok nb →
      (installWith hB B urls eB (installWith hA A urls eA w).2).2.storage.find B = some nb ∧
        ∀ u ∈ urls, u ∈ nb.keys ∧
          ∃ r, hB.network { method := "GET", url := u } = Settled.fulfilled r ∧
            Bucket.matchRequest nb { method := "GET", url := u } = some r) := by
  have frame : ∀ (h : Host) (name other : String) (e : ExtendableEvent) (v : World),
      other ≠ name → (installWith h name urls e v).2.storage.find other = v.storage.find other := by
    intro h name other e v hne
    cases hopen : h.openFailure name with
    | some f => rw [installWith_open_failed hopen]
    | none =>
      cases ha : addAllResult h urls ((v.storage.find name).getD []) with
      | ok nb =>
        rw [installWith_addAll_ok hopen ha]
        simp only [find_replace_ne _ hne, find_openBucket_ne _ hne]
      | error f =>
        rw [installWith_addAll_failed hopen ha]
        simp only [find_openBucket_ne _ hne]
  refine ⟨fun other hne => frame hA A other eA w hne, frame hB B A eB _ hAB, ?_, ?_⟩
  · intro hopen
    have hfind := find_openBucket_self w.storage A
    cases ha : addAllResult hA urls ((w.storage.find A).getD []) with
    | ok nb =>
      rw [installWith_addAll_ok hopen ha]
      exact ⟨nb, find_replace_self hfind nb⟩
    | error f =>
      rw [installWith_addAll_failed hopen ha]
      exact ⟨_, hfind⟩
  · intro nb hopen ha
    rw [installWith_addAll_ok hopen ha]
    refine ⟨find_replace_self (find_openBucket_self _ _) nb, ?_⟩
    intro u hu
    exact addAllResult_stored ha u hu

/-- Witness for C9: install under the previous name, then under the current one. -/
theorem install_touches_only_its_bucket_witness :
    "agrokongo-v26" ≠ CACHE_NAME ∧
    (installWith (liveHost "new") CACHE_NAME urlsToCache freshInstall
        (installWith (liveHost "old") "agrokongo-v26" urlsToCache freshInstall
          emptyWorld).2).2.storage.find "agrokongo-v26" =
      (installWith (liveHost "old") "agrokongo-v26" urlsToCache freshInstall
        emptyWorld).2.storage.find "agrokongo-v26" ∧
    (installWith (liveHost "new") CACHE_NAME urlsToCache freshInstall
        (installWith (liveHost "old") "agrokongo-v26" urlsToCache freshInstall
          emptyWorld).2).2.storage.find CACHE_NAME =
      some (urlsToCache.map (fun u => (u, okResponse "new"))) :=
  have t := install_touches_only_its_bucket (liveHost "old") (liveHost "new") "agrokongo-v26"
    CACHE_NAME urlsToCache freshInstall freshInstall emptyWorld (by decide)
  ⟨by decide, t.2.1,
    (t.2.2.2 (urlsToCache.map (fun u => (u, okResponse "new"))) rfl rfl).1⟩

/-! Section: Install followed by fetch -/

/-- C6, counterexample: the storage holds a bucket left by the previous version with
an entry for `/`.  Install succeeds and stores the snapshot "live" for `/` in the
bucket named by `CACHE_NAME`; a later `GET /` is answered with "v26 page" from the
older bucket, not with the snapshot that install stored. -/
theorem fetch_after_install_answers_from_older_bucket :
    "/" ∈ urlsToCache ∧
    (installHandler (liveHost "live") freshInstall oldVersionOnly).1.extended
      = [Settled.fulfilled ()] ∧
    (installHandler (liveHost "live") freshInstall oldVersionOnly).2.calls
      = [HostCall.cachesOpen CACHE_NAME, HostCall.cacheAddAll CACHE_NAME urlsToCache] ∧
    ((installHandler (liveHost "live") freshInstall oldVersionOnly).2.storage.find
        CACHE_NAME).map (fun b => Bucket.matchRequest b getRoot)
      = some (some (okResponse "live")) ∧
    (fetchHandler (liveHost "later") (freshFetch getRoot)
        (installHandler (liveHost "live") freshInstall oldVersionOnly).2).1.responded
      = [Settled.fulfilled (okResponse "v26 page")] ∧
    Settled.fulfilled (okResponse "v26 page") ≠ Settled.fulfilled (okResponse "live") := by
  decide

/-- C6, amended: after a successful install with an asset list containing `/`, a
`GET /` is answered from the cache storage with one lookup and no network call, for
every later behaviour of the network and every prior state of the storage; when no
bucket created before the bucket of the install holds `/`, the answer is the snapshot
that install fetched and stored for `/`. -/
theorem fetch_after_install_serves_snapshot (h1 h2 : Host) (name : String)
    (urls : List String) (e1 : ExtendableEvent) (w0 : World) (nb : Bucket)
    (hroot : "/" ∈ urls)
    (hopen : h1.openFailure name = none)
    (hadd : addAllResult h1 urls ((w0.storage.find name).getD []) = Except.ok nb) :
    (fetchHandler h2 (freshFetch getRoot) (installWith h1 name urls e1 w0).2).2.calls =
      (installWith h1 name urls e1 w0).2.calls ++ [HostCall.cachesMatch getRoot] ∧
    (∃ r, (fetchHandler h2 (freshFetch getRoot)
        (installWith h1 name urls e1 w0).2).1.responded = [Settled.fulfilled r]) ∧
    ((∀ p ∈ w0.storage.before name, Bucket.matchRequest p.2 getRoot = none) →
      ∃ snap, h1.network getRoot = Settled.fulfilled snap ∧
        Bucket.matchRequest nb getRoot = some snap ∧
        (installWith h1 name urls e1 w0).2.storage.find name = some nb ∧
        (fetchHandler h2 (freshFetch getRoot)
          (installWith h1 name urls e1 w0).2).1.responded = [Settled.fulfilled snap]) := by
  obtain ⟨_, snap, hnet, hsnap⟩ := addAllResult_stored hadd "/" hroot
  have hget : (freshFetch getRoot).request.method = "GET" := rfl
  rw [installWith_addAll_ok hopen hadd]
  have hfind : ((w0.storage.openBucket name).replace name nb).find name = some nb :=
    find_replace_self (find_openBucket_self _ _) nb
  obtain ⟨r1, hr1⟩ := matchRequest_of_find hfind hsnap
  refine ⟨?_, ⟨r1, ?_⟩, ?_⟩
  · rw [fetchHandler_hit hget hr1]
    rfl
  · rw [fetchHandler_hit hget hr1]
    rfl
  · intro hearlier
    refine ⟨snap, hnet, hsnap, hfind, ?_⟩
    have hbefore : ∀ p ∈ CacheStorage.before ((w0.storage.openBucket name).replace name nb) name,
        Bucket.matchRequest p.2 getRoot = none := by
      rw [before_replace, before_openBucket]
      exact hearlier
    rw [fetchHandler_hit hget (matchRequest_of_first hfind hsnap hbefore)]
    rfl

/-- Witness for C6: install on an empty storage, then the content of `/` changes. -/
theorem fetch_after_install_serves_snapshot_witness :
    "/" ∈ urlsToCache ∧
    (liveHost "live").openFailure CACHE_NAME = none ∧
    (∀ p ∈ emptyWorld.storage.before CACHE_NAME, Bucket.matchRequest p.2 getRoot = none) ∧
    (liveHost "later").network getRoot = Settled.fulfilled (okResponse "later") ∧
    ∃ snap, (liveHost "live").network getRoot = Settled.fulfilled snap ∧
      Bucket.matchRequest (urlsToCache.map (fun u => (u, okResponse "live"))) getRoot
        = some snap ∧
      (installWith (liveHost "live") CACHE_NAME urlsToCache freshInstall
        emptyWorld).2.storage.find CACHE_NAME
        = some (urlsToCache.map (fun u => (u, okResponse "live"))) ∧
      (fetchHandler (liveHost "later") (freshFetch getRoot)
        (installWith (liveHost "live") CACHE_NAME urlsToCache freshInstall
          emptyWorld).2).1.responded = [Settled.fulfilled snap] :=
  ⟨by decide, rfl, by decide, rfl,
    (fetch_after_install_serves_snapshot (liveHost "live") (liveHost "later") CACHE_NAME
      urlsToCache freshInstall emptyWorld (urlsToCache.map (fun u => (u, okResponse "live")))
      (by decide) rfl rfl).2.2 (by decide)⟩

end AgroKongo
